import Mathlib

/-! Shallow embedding of the NetworkX-backed graph storage
(lightrag/kg/networkx_impl.py, class NetworkXStorage).

Attribute maps (Python dicts with string keys and values) are association
lists in insertion order with unique keys.  A graph is its directedness flag,
its node list (id and attributes, in iteration order) and its edge list
(source, target, attributes, in iteration order), mirroring the networkx
container the source manipulates.  The persisted file is modelled at graph
granularity: the codec (read_graphml / write_graphml) is an external
collaborator, so writing stores the graph value and loading returns it. -/

/-- Attribute maps: Python dicts of string keys and values, insertion ordered. -/
abbrev Attrs := List (String × String)

/-- Python dict assignment m[k] = v: overwrite in place when the key exists
(keeping its position), otherwise append at the end. -/
def setAttr : Attrs → String × String → Attrs
  | [], kv => [kv]
  | (k0, v0) :: rest, (k, v) =>
    if k0 = k then (k0, v) :: rest else (k0, v0) :: setAttr rest (k, v)

/-- Python dict.update(new): assign each binding of new in order. -/
def updAttrs (old new : Attrs) : Attrs := new.foldl setAttr old

/-- First value bound to a key, none when the key is absent. -/
def lookupAttr : Attrs → String → Option String
  | [], _ => none
  | (k0, v0) :: rest, k => if k0 = k then some v0 else lookupAttr rest k

/-- In-memory networkx graph state. -/
structure NxGraph where
  directed : Bool
  nodes : List (String × Attrs)
  edges : List (String × String × Attrs)
deriving DecidableEq

/-- nx.Graph(): the empty undirected graph. -/
def nxGraphEmpty : NxGraph := { directed := false, nodes := [], edges := [] }

/-- Node ids in iteration order. -/
def nodeIds (g : NxGraph) : List String := g.nodes.map Prod.fst

/-- graph.has_node(id). -/
def hasNodeG (g : NxGraph) (id : String) : Bool := (nodeIds g).contains id

/-- graph.nodes.get(id): the attribute map of a node, none when absent. -/
def getNodeG (g : NxGraph) (id : String) : Option Attrs :=
  (g.nodes.find? (fun n => n.1 == id)).map Prod.snd

/-- Whether stored edge e answers the query pair (s, t): a directed graph
matches the exact orientation, an undirected graph either orientation. -/
def edgeMatch (directed : Bool) (s t : String) (e : String × String × Attrs) : Bool :=
  if directed then e.1 == s && e.2.1 == t
  else (e.1 == s && e.2.1 == t) || (e.1 == t && e.2.1 == s)

/-- graph.has_edge(s, t). -/
def hasEdgeG (g : NxGraph) (s t : String) : Bool := g.edges.any (edgeMatch g.directed s t)

/-- graph.edges.get((s, t)): the attribute map of an edge, none when absent. -/
def getEdgeG (g : NxGraph) (s t : String) : Option Attrs :=
  (g.edges.find? (edgeMatch g.directed s t)).map (fun e => e.2.2)

/-- graph.degree(id) for a present node: incident edge count, self-loops twice. -/
def degreeG (g : NxGraph) (id : String) : Nat :=
  (g.edges.map (fun e =>
    (if e.1 == id then 1 else 0) + (if e.2.1 == id then 1 else 0))).sum

/-- graph.add_node(id, **attrs): create the node, or update the attributes of
an existing node in place. -/
def addNode (g : NxGraph) (id : String) (attrs : Attrs) : NxGraph :=
  if hasNodeG g id then
    { g with nodes := g.nodes.map (fun n => if n.1 == id then (n.1, updAttrs n.2 attrs) else n) }
  else { g with nodes := g.nodes ++ [(id, attrs)] }

/-- Endpoint step of graph.add_edge: create the node with empty attributes
when it is missing. -/
def addMissingNode (g : NxGraph) (id : String) : NxGraph :=
  if hasNodeG g id then g else addNode g id []

/-- Edge step of graph.add_edge: an existing edge keeps its stored orientation
and position and has its attributes updated; a new edge is appended. -/
def addEdgeRaw (g : NxGraph) (s t : String) (attrs : Attrs) : NxGraph :=
  if hasEdgeG g s t then
    { g with edges := g.edges.map (fun e =>
        if edgeMatch g.directed s t e then (e.1, e.2.1, updAttrs e.2.2 attrs) else e) }
  else { g with edges := g.edges ++ [(s, t, attrs)] }

/-- graph.add_edge(s, t, **attrs): missing endpoints are created with empty
attributes, then the edge is created or updated. -/
def addEdge (g : NxGraph) (s t : String) (attrs : Attrs) : NxGraph :=
  addEdgeRaw (addMissingNode (addMissingNode g s) t) s t attrs

/-- graph.remove_node(id): drop the node and every incident edge. -/
def removeNode (g : NxGraph) (id : String) : NxGraph :=
  { g with nodes := g.nodes.filter (fun n => !(n.1 == id)),
           edges := g.edges.filter (fun e => !(e.1 == id) && !(e.2.1 == id)) }

/-- graph.remove_edge(s, t): drop the matching edge (either orientation when
the graph is undirected). -/
def removeEdge (g : NxGraph) (s t : String) : NxGraph :=
  { g with edges := g.edges.filter (fun e => !(edgeMatch g.directed s t e)) }

/-- NetworkXStorage.has_node acting on the coherence-guarded graph. -/
def has_node (g : NxGraph) (node_id : String) : Bool := hasNodeG g node_id

/-- NetworkXStorage.has_edge. -/
def has_edge (g : NxGraph) (source_node_id target_node_id : String) : Bool :=
  hasEdgeG g source_node_id target_node_id

/-- NetworkXStorage.get_node. -/
def get_node (g : NxGraph) (node_id : String) : Option Attrs := getNodeG g node_id

/-- NetworkXStorage.get_edge. -/
def get_edge (g : NxGraph) (source_node_id target_node_id : String) : Option Attrs :=
  getEdgeG g source_node_id target_node_id

/-- NetworkXStorage.get_node_edges: none for an absent node, else the incident
edges as (node, neighbor) pairs in iteration order. -/
def get_node_edges (g : NxGraph) (source_node_id : String) : Option (List (String × String)) :=
  if hasNodeG g source_node_id then
    some ((g.edges.filter (fun e =>
        e.1 == source_node_id || (!g.directed && e.2.1 == source_node_id))).map
      (fun e => (source_node_id, if e.1 == source_node_id then e.2.1 else e.1)))
  else none

/-- Result of graph.degree(x) in networkx: a number when x is a node; when x is
absent the call falls through to a DegreeView over x treated as an nbunch,
which is not a number (and not an exception). -/
inductive DegreeCallResult where
  | int (n : Nat)
  | view
deriving DecidableEq

/-- graph.degree(x). -/
def nxDegreeCall (g : NxGraph) (x : String) : DegreeCallResult :=
  if hasNodeG g x then .int (degreeG g x) else .view

/-- NetworkXStorage.node_degree: returns graph.degree(node_id) unchecked. -/
def node_degree (g : NxGraph) (node_id : String) : DegreeCallResult := nxDegreeCall g node_id

/-- NetworkXStorage.edge_degree: graph.degree(src) + graph.degree(tgt); adding
a DegreeView to a number raises a TypeError. -/
def edge_degree (g : NxGraph) (src_id tgt_id : String) : Except String Nat :=
  match nxDegreeCall g src_id, nxDegreeCall g tgt_id with
  | .int a, .int b => .ok (a + b)
  | _, _ => .error "TypeError: unsupported operand for +"

/-- NetworkXStorage.upsert_node. -/
def upsert_node (g : NxGraph) (node_id : String) (node_data : Attrs) : NxGraph :=
  addNode g node_id node_data

/-- NetworkXStorage.upsert_edge. -/
def upsert_edge (g : NxGraph) (source_node_id target_node_id : String) (edge_data : Attrs) :
    NxGraph :=
  addEdge g source_node_id target_node_id edge_data

/-- NetworkXStorage.delete_node: remove when present, else only log a warning. -/
def delete_node (g : NxGraph) (node_id : String) : NxGraph :=
  if hasNodeG g node_id then removeNode g node_id else g

/-- NetworkXStorage.remove_nodes: remove each listed node that is present. -/
def remove_nodes (g : NxGraph) (nodes : List String) : NxGraph :=
  nodes.foldl (fun g n => if hasNodeG g n then removeNode g n else g) g

/-- NetworkXStorage.remove_edges: remove each listed edge that is present. -/
def remove_edges (g : NxGraph) (edges : List (String × String)) : NxGraph :=
  edges.foldl (fun g e => if hasEdgeG g e.1 e.2 then removeEdge g e.1 e.2 else g) g

/-- add_nodes_from: add each (id, attrs) pair in order. -/
def addNodesFrom (g : NxGraph) (ns : List (String × Attrs)) : NxGraph :=
  ns.foldl (fun g n => addNode g n.1 n.2) g

/-- add_edges_from: add each (source, target, attrs) triple in order. -/
def addEdgesFrom (g : NxGraph) (es : List (String × String × Attrs)) : NxGraph :=
  es.foldl (fun g e => addEdge g e.1 e.2.1 e.2.2) g

/-- Reorient one undirected edge so that source <= target in string order. -/
def _sort_source_target (e : String × String × Attrs) : String × String × Attrs :=
  if e.1 > e.2.1 then (e.2.1, e.1, e.2.2) else e

/-- Sort key of an edge. -/
def _get_edge_key (source target : String) : String := source ++ " -> " ++ target

/-- Order on nodes used by _stabilize_graph: ascending id. -/
def nodeLE (a b : String × Attrs) : Bool := decide (a.1 ≤ b.1)

/-- Order on edges used by _stabilize_graph: ascending edge key. -/
def edgeKeyLE (a b : String × String × Attrs) : Bool :=
  decide (_get_edge_key a.1 a.2.1 ≤ _get_edge_key b.1 b.2.1)

/-- NetworkXStorage._stabilize_graph: rebuild a fresh graph of the same
directedness from the nodes sorted by id and the edges (reoriented so that
source <= target when undirected) sorted by key.  Python sorted is a stable
merge sort, embedded as List.mergeSort. -/
def _stabilize_graph (graph : NxGraph) : NxGraph :=
  let fixed_graph : NxGraph := { directed := graph.directed, nodes := [], edges := [] }
  let sorted_nodes := graph.nodes.mergeSort nodeLE
  let fixed_graph := addNodesFrom fixed_graph sorted_nodes
  let edges := graph.edges
  let edges := if graph.directed then edges else edges.map _sort_source_target
  let edges := edges.mergeSort edgeKeyLE
  addEdgesFrom fixed_graph edges

/-- Storage-level state: process mode, the per-process staleness flag
(storage_updated), the in-memory graph, and the persisted file content
(none when the file is absent). -/
structure StoreState where
  multiprocess : Bool
  storage_updated : Bool
  graph : NxGraph
  file : Option NxGraph
deriving DecidableEq

/-- load_nx_graph: read the persisted file, none when it is absent. -/
def load_nx_graph (file : Option NxGraph) : Option NxGraph := file

/-- NetworkXStorage._get_graph: under the storage lock, when the update flag is
set reload from the file (empty graph when absent) and clear the flag, then
return the current graph. -/
def _get_graph (st : StoreState) : StoreState × NxGraph :=
  if (st.multiprocess && st.storage_updated) || (!st.multiprocess && st.storage_updated) then
    let g := (load_nx_graph st.file).getD nxGraphEmpty
    ({ st with graph := g, storage_updated := false }, g)
  else (st, st.graph)

/-- NetworkXStorage.index_done_callback: on a multiprocess conflict (flag set
by a peer) reload, clear the flag and return failure without writing;
otherwise fetch the current graph, hand it to the file writer, notify peers
and clear the own flag.  The third component is the graph handed to
write_nx_graph, none when nothing is written. -/
def index_done_callback (st : StoreState) : StoreState × Bool × Option NxGraph :=
  if st.multiprocess && st.storage_updated then
    ({ st with graph := (load_nx_graph st.file).getD nxGraphEmpty, storage_updated := false },
      false, none)
  else
    let p := _get_graph st
    ({ p.1 with file := some p.2, storage_updated := false }, true, some p.2)

/-- needle is a prefix of hay, over character lists. -/
def chPre : List Char → List Char → Bool
  | [], _ => true
  | _ :: _, [] => false
  | a :: as, b :: bs => a == b && chPre as bs

/-- needle occurs inside hay, over character lists. -/
def chSub : List Char → List Char → Bool
  | n, [] => n.isEmpty
  | n, c :: rest => chPre n (c :: rest) || chSub n rest

/-- Python substring test: needle in hay. -/
def strContains (hay needle : String) : Bool := chSub needle.data hay.data

/-- Adjacency used by neighborhood expansion: successors in a directed graph,
either endpoint in an undirected one (nx.ego_graph semantics). -/
def adjacentB (g : NxGraph) (u v : String) : Bool :=
  g.edges.any (fun e => (e.1 == u && e.2.1 == v) || (!g.directed && e.1 == v && e.2.1 == u))

/-- Ids at edge-distance at most k from start (start included). -/
def reachSet (g : NxGraph) (start : String) : Nat → List String
  | 0 => [start]
  | k + 1 =>
    let r := reachSet g start k
    r ++ (nodeIds g).filter (fun v => !r.contains v && r.any (fun u => adjacentB g u v))

/-- nx.ego_graph(graph, n, radius): induced subgraph on the ball around n. -/
def egoGraph (g : NxGraph) (center : String) (radius : Nat) : NxGraph :=
  { directed := g.directed,
    nodes := g.nodes.filter (fun n => (reachSet g center radius).contains n.1),
    edges := g.edges.filter (fun e =>
      (reachSet g center radius).contains e.1 && (reachSet g center radius).contains e.2.1) }

/-- Candidate subgraph of get_knowledge_graph: the whole graph for label "*",
else the ego graph of the first node whose stringified id contains the label
(none when no node matches: empty result with a logged warning). -/
def candidateSubgraph (g : NxGraph) (node_label : String) (max_depth : Nat) : Option NxGraph :=
  if node_label == "*" then some g
  else
    match (g.nodes.filter (fun n => strContains n.1 node_label)).map Prod.fst with
    | [] => none
    | n :: _ => some (egoGraph g n max_depth)

/-- Node cap of get_knowledge_graph. -/
def max_graph_nodes : Nat := 500

/-- Degree-descending order used by the truncation; List.mergeSort with this
relation is stable on ties, as Python sorted with reverse=True. -/
def degGE (a b : String × Nat) : Bool := decide (b.2 ≤ a.2)

/-- Truncation step of get_knowledge_graph: when the candidate exceeds 500
nodes, keep the 500 of highest degree (ties by iteration order) and induce
the subgraph on them. -/
def truncateSubgraph (sub : NxGraph) : NxGraph :=
  if max_graph_nodes < sub.nodes.length then
    let node_degrees := sub.nodes.map (fun n => (n.1, degreeG sub n.1))
    let top_nodes := (node_degrees.mergeSort degGE).take max_graph_nodes
    let top_node_ids := top_nodes.map Prod.fst
    { directed := sub.directed,
      nodes := sub.nodes.filter (fun n => top_node_ids.contains n.1),
      edges := sub.edges.filter (fun e =>
        top_node_ids.contains e.1 && top_node_ids.contains e.2.1) }
  else sub

/-- Result node of get_knowledge_graph. -/
structure KGNode where
  id : String
  labels : List String
  properties : Attrs
deriving DecidableEq

/-- Result edge of get_knowledge_graph. -/
structure KGEdge where
  id : String
  type : String
  source : String
  target : String
  properties : Attrs
deriving DecidableEq

/-- Result container of get_knowledge_graph. -/
structure KnowledgeGraph where
  nodes : List KGNode
  edges : List KGEdge
deriving DecidableEq

/-- Node projection loop with its seen set (dedup by stringified id).  The
source computes an entity_type label list but passes labels := [str(node)]. -/
def addResultNodes : List (String × Attrs) → List String → List KGNode
  | [], _ => []
  | n :: rest, seen =>
    if seen.contains n.1 then addResultNodes rest seen
    else { id := n.1, labels := [n.1], properties := n.2 } :: addResultNodes rest (n.1 :: seen)

/-- Edge projection loop with its seen set (dedup by "source-target", reverse
orientation not deduplicated), type fixed to "DIRECTED". -/
def addResultEdges : List (String × String × Attrs) → List String → List KGEdge
  | [], _ => []
  | e :: rest, seen =>
    if seen.contains (e.1 ++ "-" ++ e.2.1) then addResultEdges rest seen
    else { id := e.1 ++ "-" ++ e.2.1, type := "DIRECTED", source := e.1, target := e.2.1,
           properties := e.2.2 } :: addResultEdges rest ((e.1 ++ "-" ++ e.2.1) :: seen)

/-- The empty result. -/
def emptyKG : KnowledgeGraph := { nodes := [], edges := [] }

/-- NetworkXStorage.get_knowledge_graph. -/
def get_knowledge_graph (g : NxGraph) (node_label : String) (max_depth : Nat) : KnowledgeGraph :=
  match candidateSubgraph g node_label max_depth with
  | none => emptyKG
  | some sub =>
    { nodes := addResultNodes (truncateSubgraph sub).nodes [],
      edges := addResultEdges (truncateSubgraph sub).edges [] }

/-- Node ids are unique: the networkx node-dict invariant. -/
def NodesOk (g : NxGraph) : Prop := (nodeIds g).Nodup

/-- Edge endpoints are stored nodes: the networkx adjacency invariant. -/
def EdgesOk (g : NxGraph) : Prop := ∀ e ∈ g.edges, e.1 ∈ nodeIds g ∧ e.2.1 ∈ nodeIds g

/-- Two stored edges denote the same endpoint pair (ordered when directed,
unordered when undirected). -/
def sameEdgePair (directed : Bool) (e f : String × String × Attrs) : Prop :=
  (e.1 = f.1 ∧ e.2.1 = f.2.1) ∨ (directed = false ∧ e.1 = f.2.1 ∧ e.2.1 = f.1)

/-- No two stored edges denote the same endpoint pair: the networkx invariant
that a pair carries at most one edge. -/
def EdgesUniq (g : NxGraph) : Prop := g.edges.Pairwise (fun e f => ¬ sameEdgePair g.directed e f)

/-- Representation invariant of every networkx graph value. -/
def WFGraph (g : NxGraph) : Prop := NodesOk g ∧ EdgesOk g ∧ EdgesUniq g

instance (g : NxGraph) : Decidable (NodesOk g) := by unfold NodesOk; infer_instance

instance (g : NxGraph) : Decidable (EdgesOk g) := by unfold EdgesOk; infer_instance

instance (d : Bool) (e f : String × String × Attrs) : Decidable (sameEdgePair d e f) := by
  unfold sameEdgePair; infer_instance

instance (g : NxGraph) : Decidable (EdgesUniq g) := by unfold EdgesUniq; infer_instance

instance (g : NxGraph) : Decidable (WFGraph g) := by unfold WFGraph; infer_instance

/-- Concrete graph whose nodes were inserted out of id order. -/
def graphBA : NxGraph := { directed := false, nodes := [("b", []), ("a", [])], edges := [] }

/-- Concrete clean single-view storage state holding graphBA, no file yet. -/
def stC1 : StoreState :=
  { multiprocess := false, storage_updated := false, graph := graphBA, file := none }

/-- Concrete multiprocess storage state entered with the shared flag set: the
local graph differs from the persisted file content. -/
def stC2 : StoreState :=
  { multiprocess := true, storage_updated := true,
    graph := { directed := false, nodes := [("local", [])], edges := [] },
    file := some graphBA }

/-- Concrete well-formed undirected graph with unsorted nodes and an edge
stored with source > target, exercising both stabilization steps. -/
def graphC4 : NxGraph :=
  { directed := false,
    nodes := [("b", [("t", "x")]), ("a", []), ("c", [])],
    edges := [("c", "a", [("w", "1")]), ("b", "a", [])] }

/-- The spec example graph: nodes A, B, C and undirected edges A-B, B-C. -/
def graphABC : NxGraph :=
  { directed := false,
    nodes := [("A", []), ("B", []), ("C", [])],
    edges := [("A", "B", []), ("B", "C", [])] }

/-- C1: the observed persist never invokes _stabilize_graph.  At the concrete
state stC1 (in-memory graph graphBA with nodes inserted as b then a), the
successful persist hands the file writer the in-memory graph unchanged, and
that graph differs from its canonical stabilization, so the graph handed to
the writer is not _stabilize_graph of the current graph. -/
theorem index_done_callback_writes_unstabilized :
    index_done_callback stC1 = ({ stC1 with file := some graphBA }, true, some graphBA) ∧
    _stabilize_graph graphBA ≠ graphBA := by
  refine ⟨by decide, ?_⟩
  have h : _stabilize_graph graphBA =
      { directed := false, nodes := [("a", []), ("b", [])], edges := [] } := by
    simp [graphBA, _stabilize_graph, List.mergeSort, List.splitInTwo, List.merge, nodeLE,
      addNodesFrom, addNode, hasNodeG, nodeIds, addEdgesFrom]
    decide
  rw [h]
  decide

/-- C2: for every state entered with the shared (multiprocess) staleness flag
set, persist writes nothing, discards the local graph by reloading from disk
(empty graph when the file is absent), clears the flag and reports failure. -/
theorem index_done_callback_conflict (st : StoreState)
    (hm : st.multiprocess = true) (hf : st.storage_updated = true) :
    index_done_callback st =
      ({ st with graph := st.file.getD nxGraphEmpty, storage_updated := false }, false, none) := by
  unfold index_done_callback
  rw [hm, hf]
  simp [load_nx_graph]

/-- Witness for C2 at the concrete conflicted state stC2. -/
theorem index_done_callback_conflict_witness :
    stC2.multiprocess = true ∧ stC2.storage_updated = true ∧
    index_done_callback stC2 =
      ({ stC2 with graph := stC2.file.getD nxGraphEmpty, storage_updated := false },
        false, none) :=
  ⟨rfl, rfl, index_done_callback_conflict stC2 rfl rfl⟩

/-- C5: on the graph with nodes A, B, C and undirected edges A-B, B-C, the
query get_knowledge_graph "B" with max_depth 1 returns exactly the nodes A, B,
C and exactly the edges A-B and B-C. -/
theorem get_knowledge_graph_example_B :
    get_knowledge_graph graphABC "B" 1 =
      { nodes := [{ id := "A", labels := ["A"], properties := [] },
                  { id := "B", labels := ["B"], properties := [] },
                  { id := "C", labels := ["C"], properties := [] }],
        edges := [{ id := "A-B", type := "DIRECTED", source := "A", target := "B",
                    properties := [] },
                  { id := "B-C", type := "DIRECTED", source := "B", target := "C",
                    properties := [] }] } := by
  decide

/-- C7: a query whose label matches no node returns the empty result without
error, and the whole-graph query on the empty graph returns the empty result. -/
theorem get_knowledge_graph_empty_results (g : NxGraph) (node_label : String) (max_depth : Nat)
    (hstar : node_label ≠ "*") (hnone : ∀ n ∈ g.nodes, strContains n.1 node_label = false) :
    get_knowledge_graph g node_label max_depth = emptyKG ∧
    get_knowledge_graph nxGraphEmpty "*" max_depth = emptyKG := by
  constructor
  · unfold get_knowledge_graph candidateSubgraph
    have h1 : (node_label == "*") = false := beq_eq_false_iff_ne.mpr hstar
    have h2 : g.nodes.filter (fun n => strContains n.1 node_label) = [] := by
      rw [List.filter_eq_nil_iff]
      intro n hn
      simp [hnone n hn]
    rw [h1, h2]
    rfl
  · rfl

/-- Witness for C7: the label Z matches no node of graphABC. -/
theorem get_knowledge_graph_empty_results_witness :
    ("Z" : String) ≠ "*" ∧ (∀ n ∈ graphABC.nodes, strContains n.1 "Z" = false) ∧
    (get_knowledge_graph graphABC "Z" 5 = emptyKG ∧
      get_knowledge_graph nxGraphEmpty "*" 5 = emptyKG) :=
  ⟨by decide, by decide, get_knowledge_graph_empty_results graphABC "Z" 5 (by decide) (by decide)⟩

theorem find?_isSome_eq_any (l : List (String × String × Attrs))
    (p : String × String × Attrs → Bool) : (l.find? p).isSome = l.any p := by
  induction l with
  | nil => rfl
  | cons e rest ih =>
    simp only [List.find?, List.any]
    cases h : p e <;> simp [h, ih]

theorem find?_node_isSome (l : List (String × Attrs)) (id : String) :
    (l.find? (fun n => n.1 == id)).isSome = (l.map Prod.fst).contains id := by
  induction l with
  | nil => rfl
  | cons n rest ih =>
    simp only [List.find?, List.map, List.contains_cons]
    cases h : (n.1 == id) with
    | true => simp [beq_iff_eq.mp h]
    | false =>
      have h2 : (id == n.1) = false := by
        rw [beq_eq_false_iff_ne] at h ⊢
        exact fun e => h e.symm
      simp [h, h2, ih]

theorem isSome_omap {α β : Type} (f : α → β) (o : Option α) :
    (Option.map f o).isSome = o.isSome := by
  cases o <;> rfl

/-- C6 counterexample: on the empty graph, edge_degree with absent endpoints
raises a TypeError instead of returning an absence marker, because node_degree
of an absent node evaluates to a DegreeView instead of a number or a marker. -/
theorem edge_degree_absent_raises :
    edge_degree nxGraphEmpty "a" "b" = Except.error "TypeError: unsupported operand for +" ∧
    node_degree nxGraphEmpty "a" = DegreeCallResult.view :=
  ⟨rfl, rfl⟩

/-- C6 amended: has_node, has_edge, get_node, get_edge and get_node_edges
return a presence or absence value and never raise (the optional results are
some exactly on present input, none as the absence marker), and edge_degree
succeeds whenever both endpoints exist; node_degree and edge_degree on absent
nodes are excluded by the counterexample. -/
theorem absent_queries_soft (g : NxGraph) (n s t : String) :
    ((get_node g n).isSome = has_node g n) ∧
    ((get_node_edges g n).isSome = has_node g n) ∧
    ((get_edge g s t).isSome = has_edge g s t) ∧
    (has_node g s = true → has_node g t = true →
      edge_degree g s t = Except.ok (degreeG g s + degreeG g t)) := by
  refine ⟨?_, ?_, ?_, ?_⟩
  · unfold get_node getNodeG has_node hasNodeG nodeIds
    rw [isSome_omap]
    exact find?_node_isSome g.nodes n
  · unfold get_node_edges has_node
    cases h : hasNodeG g n <;> simp [h]
  · unfold get_edge getEdgeG has_edge hasEdgeG
    rw [isSome_omap]
    exact find?_isSome_eq_any g.edges _
  · intro hs ht
    unfold has_node at hs ht
    unfold edge_degree nxDegreeCall
    rw [hs, ht]
    simp

/-- Witness for C6 amended, at concrete absent and present inputs. -/
theorem absent_queries_soft_witness :
    ((get_node graphABC "X").isSome = has_node graphABC "X") ∧
    ((get_node_edges graphABC "X").isSome = has_node graphABC "X") ∧
    ((get_edge graphABC "X" "Y").isSome = has_edge graphABC "X" "Y") ∧
    (has_node graphABC "A" = true ∧ has_node graphABC "B" = true ∧
      edge_degree graphABC "A" "B" = Except.ok (degreeG graphABC "A" + degreeG graphABC "B")) :=
  ⟨(absent_queries_soft graphABC "X" "X" "Y").1,
   (absent_queries_soft graphABC "X" "X" "Y").2.1,
   (absent_queries_soft graphABC "X" "X" "Y").2.2.1,
   by decide, by decide,
   (absent_queries_soft graphABC "A" "A" "B").2.2.2 (by decide) (by decide)⟩

theorem find?_append_some {α : Type} (p : α → Bool) {l1 : List α} (l2 : List α) {x : α}
    (h : l1.find? p = some x) : (l1 ++ l2).find? p = some x := by
  induction l1 with
  | nil => simp [List.find?] at h
  | cons a rest ih =>
    simp only [List.cons_append, List.find?] at h ⊢
    cases hp : p a with
    | true => simpa [hp] using h
    | false =>
      rw [hp] at h
      simpa [hp] using ih h

theorem find?_append_none_left {α : Type} (p : α → Bool) {l1 : List α} (l2 : List α)
    (h : ∀ x ∈ l1, p x = false) : (l1 ++ l2).find? p = l2.find? p := by
  induction l1 with
  | nil => rfl
  | cons a rest ih =>
    simp only [List.cons_append, List.find?]
    rw [h a (List.mem_cons_self a rest)]
    exact ih (fun x hx => h x (List.mem_cons_of_mem a hx))

theorem contains_iff_memS {l : List String} {a : String} : l.contains a = true ↔ a ∈ l := by
  simp [List.contains_iff_exists_mem_beq]

theorem hasNodeG_false_iff {g : NxGraph} {id : String} :
    hasNodeG g id = false ↔ ∀ n ∈ g.nodes, (n.1 == id) = false := by
  unfold hasNodeG nodeIds
  constructor
  · intro h n hn
    by_contra hne
    rw [Bool.not_eq_false, beq_iff_eq] at hne
    have : id ∈ g.nodes.map Prod.fst := List.mem_map.mpr ⟨n, hn, hne⟩
    rw [contains_iff_memS.mpr this] at h
    cases h
  · intro h
    by_contra hc
    rw [Bool.not_eq_false] at hc
    obtain ⟨n, hn, he⟩ := List.mem_map.mp (contains_iff_memS.mp hc)
    have h2 := h n hn
    rw [he] at h2
    simp at h2

theorem addNode_directed (g : NxGraph) (id : String) (a : Attrs) :
    (addNode g id a).directed = g.directed := by
  unfold addNode; split <;> rfl

theorem addNode_edges (g : NxGraph) (id : String) (a : Attrs) :
    (addNode g id a).edges = g.edges := by
  unfold addNode; split <;> rfl

theorem nodeIds_addNode_absent {g : NxGraph} {id : String} (a : Attrs)
    (h : hasNodeG g id = false) : (addNode g id a).nodes = g.nodes ++ [(id, a)] := by
  unfold addNode
  rw [h]
  simp

theorem addMissingNode_present {g : NxGraph} {id : String} (h : hasNodeG g id = true) :
    addMissingNode g id = g := by
  unfold addMissingNode
  rw [h]
  simp

theorem addMissingNode_absent {g : NxGraph} {id : String} (h : hasNodeG g id = false) :
    addMissingNode g id = { g with nodes := g.nodes ++ [(id, [])] } := by
  unfold addMissingNode addNode
  rw [h]
  simp

theorem addMissingNode_directed (g : NxGraph) (id : String) :
    (addMissingNode g id).directed = g.directed := by
  unfold addMissingNode
  split
  · rfl
  · exact addNode_directed g id []

theorem addMissingNode_edges (g : NxGraph) (id : String) :
    (addMissingNode g id).edges = g.edges := by
  unfold addMissingNode
  split
  · rfl
  · exact addNode_edges g id []

theorem hasNodeG_addMissingNode_self (g : NxGraph) (id : String) :
    hasNodeG (addMissingNode g id) id = true := by
  cases h : hasNodeG g id with
  | true => rw [addMissingNode_present h]; exact h
  | false =>
    rw [addMissingNode_absent h]
    unfold hasNodeG nodeIds
    simp

theorem hasNodeG_addMissingNode_mono {g : NxGraph} {x : String} (id : String)
    (h : hasNodeG g x = true) : hasNodeG (addMissingNode g id) x = true := by
  cases hid : hasNodeG g id with
  | true => rw [addMissingNode_present hid]; exact h
  | false =>
    rw [addMissingNode_absent hid]
    unfold hasNodeG nodeIds at h ⊢
    simp only [List.map_append]
    rw [contains_iff_memS] at h ⊢
    exact List.mem_append_left _ h

theorem addEdgeRaw_nodes (g : NxGraph) (s t : String) (a : Attrs) :
    (addEdgeRaw g s t a).nodes = g.nodes := by
  unfold addEdgeRaw; split <;> rfl

theorem addEdgeRaw_directed (g : NxGraph) (s t : String) (a : Attrs) :
    (addEdgeRaw g s t a).directed = g.directed := by
  unfold addEdgeRaw; split <;> rfl

theorem edgeMatch_self (d : Bool) (s t : String) (a : Attrs) :
    edgeMatch d s t (s, t, a) = true := by
  cases d <;> simp [edgeMatch]

theorem edgeMatch_keep (d : Bool) (s t : String) (e : String × String × Attrs) (x : Attrs) :
    edgeMatch d s t (e.1, e.2.1, x) = edgeMatch d s t e := by
  cases d <;> simp [edgeMatch]

theorem find?_map_keep {α : Type} (p : α → Bool) (f : α → α) (l : List α)
    (hp : ∀ e, p (f e) = p e) : (l.map f).find? p = (l.find? p).map f := by
  induction l with
  | nil => rfl
  | cons e rest ih =>
    simp only [List.map, List.find?, hp e]
    cases h : p e <;> simp [h, ih]

theorem lookupAttr_setAttr_self (m : Attrs) (k v : String) :
    lookupAttr (setAttr m (k, v)) k = some v := by
  induction m with
  | nil => simp [setAttr, lookupAttr]
  | cons kv rest ih =>
    obtain ⟨k0, v0⟩ := kv
    by_cases h : k0 = k <;> simp [setAttr, lookupAttr, h, ih]

theorem lookupAttr_setAttr_ne (m : Attrs) (k v k2 : String) (h : k ≠ k2) :
    lookupAttr (setAttr m (k, v)) k2 = lookupAttr m k2 := by
  induction m with
  | nil => simp [setAttr, lookupAttr, h]
  | cons kv0 rest ih =>
    obtain ⟨k0, v0⟩ := kv0
    by_cases h0 : k0 = k
    · have hk02 : k0 ≠ k2 := by rw [h0]; exact h
      simp [setAttr, lookupAttr, h0, hk02, h]
    · by_cases h2 : k0 = k2 <;> simp [setAttr, lookupAttr, h0, h2, h, Ne.symm h, ih]

theorem lookupAttr_updAttrs_skip (m new : Attrs) (k : String)
    (h : ∀ kv ∈ new, kv.1 ≠ k) : lookupAttr (updAttrs m new) k = lookupAttr m k := by
  induction new generalizing m with
  | nil => rfl
  | cons kv rest ih =>
    show lookupAttr (updAttrs (setAttr m kv) rest) k = _
    rw [ih (setAttr m kv) (fun x hx => h x (List.mem_cons_of_mem kv hx))]
    exact lookupAttr_setAttr_ne m kv.1 kv.2 k (h kv (List.mem_cons_self kv rest))

theorem lookupAttr_updAttrs_mem (m new : Attrs) (k v : String)
    (hnd : (new.map Prod.fst).Nodup) (hmem : (k, v) ∈ new) :
    lookupAttr (updAttrs m new) k = some v := by
  induction new generalizing m with
  | nil => cases hmem
  | cons kv rest ih =>
    show lookupAttr (updAttrs (setAttr m kv) rest) k = some v
    rcases List.mem_cons.mp hmem with hh | ht
    · have hk : kv = (k, v) := hh.symm
      subst hk
      have hnot : ∀ x ∈ rest, x.1 ≠ k := by
        intro x hx he
        have hk : k ∈ rest.map Prod.fst := List.mem_map.mpr ⟨x, hx, he⟩
        exact (List.nodup_cons.mp (by simpa using hnd)).1 hk
      rw [lookupAttr_updAttrs_skip (setAttr m (k, v)) rest k hnot]
      exact lookupAttr_setAttr_self m k v
    · exact ih (setAttr m kv) (List.Nodup.of_cons hnd) ht

theorem lookupAttr_mem_nodup (new : Attrs) (k v : String)
    (hnd : (new.map Prod.fst).Nodup) (hmem : (k, v) ∈ new) :
    lookupAttr new k = some v := by
  induction new with
  | nil => cases hmem
  | cons kv rest ih =>
    obtain ⟨k0, v0⟩ := kv
    rcases List.mem_cons.mp hmem with hh | ht
    · cases hh
      simp [lookupAttr]
    · have hk : k0 ≠ k := by
        intro he
        have hmem2 : k ∈ rest.map Prod.fst := List.mem_map.mpr ⟨(k, v), ht, rfl⟩
        rw [← he] at hmem2
        exact (List.nodup_cons.mp (by simpa using hnd)).1 hmem2
      simp [lookupAttr, hk, ih (List.Nodup.of_cons hnd) ht]

theorem getNodeG_addMissingNode_absent {g : NxGraph} {id : String}
    (h : hasNodeG g id = false) : getNodeG (addMissingNode g id) id = some [] := by
  rw [addMissingNode_absent h]
  unfold getNodeG
  rw [show ({ g with nodes := g.nodes ++ [(id, [])] } : NxGraph).nodes
        = g.nodes ++ [(id, [])] from rfl]
  rw [find?_append_none_left _ _ (hasNodeG_false_iff.mp h)]
  simp [List.find?]

theorem hasNodeG_addMissingNode_other {g : NxGraph} (id : String) {x : String} (hne : x ≠ id) :
    hasNodeG (addMissingNode g id) x = hasNodeG g x := by
  cases h : hasNodeG g id with
  | true => rw [addMissingNode_present h]
  | false =>
    rw [addMissingNode_absent h]
    unfold hasNodeG nodeIds
    simp only [List.map_append, List.map_cons, List.map_nil]
    cases hc : (g.nodes.map Prod.fst).contains x with
    | true =>
      rw [contains_iff_memS] at hc
      exact contains_iff_memS.mpr (List.mem_append_left _ hc)
    | false =>
      rw [← Bool.not_eq_true] at hc ⊢
      rw [contains_iff_memS] at hc ⊢
      intro hmem
      rcases List.mem_append.mp hmem with hl | hr
      · exact hc hl
      · simp at hr
        exact hne hr

theorem getNodeG_addMissingNode_other {g : NxGraph} (id : String) {x : String} (hne : x ≠ id) :
    getNodeG (addMissingNode g id) x = getNodeG g x := by
  cases h : hasNodeG g id with
  | true => rw [addMissingNode_present h]
  | false =>
    rw [addMissingNode_absent h]
    unfold getNodeG
    rw [show ({ g with nodes := g.nodes ++ [(id, [])] } : NxGraph).nodes
          = g.nodes ++ [(id, [])] from rfl]
    cases hf : g.nodes.find? (fun n => n.1 == x) with
    | some y => rw [find?_append_some _ _ hf]
    | none =>
      rw [find?_append_none_left _ _ (fun n hn => by
        have := List.find?_eq_none.mp hf n hn
        simpa using this)]
      have hidx : (id == x) = false := by
        rw [beq_eq_false_iff_ne]
        exact fun e => hne e.symm
      simp [List.find?, hidx]

theorem hasNodeG_addEdgeRaw (g : NxGraph) (s t x : String) (a : Attrs) :
    hasNodeG (addEdgeRaw g s t a) x = hasNodeG g x := by
  unfold hasNodeG nodeIds
  rw [addEdgeRaw_nodes]

theorem hasEdgeG_addEdge_self (g : NxGraph) (s t : String) (attrs : Attrs) :
    hasEdgeG (addEdge g s t attrs) s t = true := by
  have hdir2 : (addMissingNode (addMissingNode g s) t).directed = g.directed := by
    rw [addMissingNode_directed, addMissingNode_directed]
  show hasEdgeG (addEdgeRaw (addMissingNode (addMissingNode g s) t) s t attrs) s t = true
  unfold hasEdgeG
  rw [addEdgeRaw_directed, hdir2]
  unfold addEdgeRaw
  cases hE2 : hasEdgeG (addMissingNode (addMissingNode g s) t) s t with
  | true =>
    simp only [hE2, if_true]
    rw [List.any_map]
    have hfe : (edgeMatch g.directed s t ∘ fun e =>
        if edgeMatch (addMissingNode (addMissingNode g s) t).directed s t e
        then (e.1, e.2.1, updAttrs e.2.2 attrs) else e) = edgeMatch g.directed s t := by
      funext e
      by_cases hm : edgeMatch (addMissingNode (addMissingNode g s) t).directed s t e = true
      · simp only [Function.comp_apply, hm, if_true]
        rw [edgeMatch_keep]
      · simp only [Function.comp_apply]
        rw [if_neg hm]
    rw [hfe]
    have h3 := hE2
    unfold hasEdgeG at h3
    rw [hdir2] at h3
    exact h3
  | false =>
    simp only [hE2, Bool.false_eq_true, if_false]
    rw [List.any_append]
    simp [edgeMatch_self]

/-- C9: upsert_edge auto-creates missing endpoints: after upsert_edge(s, t,
attrs) both endpoints exist (a newly created endpoint has an empty attribute
map) and the edge s-t exists carrying attrs: every binding of attrs is found
on the edge, and a freshly created edge carries exactly attrs. -/
theorem upsert_edge_auto_creates (g : NxGraph) (s t : String) (attrs : Attrs)
    (hkeys : (attrs.map Prod.fst).Nodup) :
    has_node (upsert_edge g s t attrs) s = true ∧
    has_node (upsert_edge g s t attrs) t = true ∧
    has_edge (upsert_edge g s t attrs) s t = true ∧
    (has_node g s = false → get_node (upsert_edge g s t attrs) s = some []) ∧
    (has_node g t = false → get_node (upsert_edge g s t attrs) t = some []) ∧
    (∀ k v, (k, v) ∈ attrs →
      ∃ m, get_edge (upsert_edge g s t attrs) s t = some m ∧ lookupAttr m k = some v) ∧
    (has_edge g s t = false → get_edge (upsert_edge g s t attrs) s t = some attrs) := by
  have hdir2 : (addMissingNode (addMissingNode g s) t).directed = g.directed := by
    rw [addMissingNode_directed, addMissingNode_directed]
  have hedges2 : (addMissingNode (addMissingNode g s) t).edges = g.edges := by
    rw [addMissingNode_edges, addMissingNode_edges]
  have hE : hasEdgeG (addMissingNode (addMissingNode g s) t) s t = hasEdgeG g s t := by
    unfold hasEdgeG
    rw [hedges2, hdir2]
  refine ⟨?_, ?_, ?_, ?_, ?_, ?_, ?_⟩
  · show hasNodeG (addEdgeRaw (addMissingNode (addMissingNode g s) t) s t attrs) s = true
    rw [hasNodeG_addEdgeRaw]
    exact hasNodeG_addMissingNode_mono t (hasNodeG_addMissingNode_self g s)
  · show hasNodeG (addEdgeRaw (addMissingNode (addMissingNode g s) t) s t attrs) t = true
    rw [hasNodeG_addEdgeRaw]
    exact hasNodeG_addMissingNode_self (addMissingNode g s) t
  · exact hasEdgeG_addEdge_self g s t attrs
  · intro hs
    unfold has_node at hs
    have hs2 := hasNodeG_false_iff.mp hs
    have hfind : (addMissingNode g s).nodes.find? (fun n => n.1 == s) = some (s, []) := by
      rw [addMissingNode_absent hs]
      rw [show ({ g with nodes := g.nodes ++ [(s, [])] } : NxGraph).nodes
            = g.nodes ++ [(s, [])] from rfl]
      rw [find?_append_none_left _ _ hs2]
      simp [List.find?]
    have hfind2 : (addMissingNode (addMissingNode g s) t).nodes.find? (fun n => n.1 == s)
        = some (s, []) := by
      cases ht1 : hasNodeG (addMissingNode g s) t with
      | true => rw [addMissingNode_present ht1]; exact hfind
      | false =>
        rw [addMissingNode_absent ht1]
        exact find?_append_some _ _ hfind
    show get_node (addEdgeRaw (addMissingNode (addMissingNode g s) t) s t attrs) s = some []
    unfold get_node getNodeG
    rw [addEdgeRaw_nodes, hfind2]
    rfl
  · intro ht
    unfold has_node at ht
    show get_node (addEdgeRaw (addMissingNode (addMissingNode g s) t) s t attrs) t = some []
    unfold get_node
    rw [show getNodeG (addEdgeRaw (addMissingNode (addMissingNode g s) t) s t attrs) t
          = getNodeG (addMissingNode (addMissingNode g s) t) t from by
        unfold getNodeG
        rw [addEdgeRaw_nodes]]
    by_cases hts : t = s
    · subst hts
      have h1 : hasNodeG (addMissingNode g t) t = true := hasNodeG_addMissingNode_self g t
      rw [addMissingNode_present h1]
      exact getNodeG_addMissingNode_absent ht
    · have h1 : hasNodeG (addMissingNode g s) t = false := by
        rw [hasNodeG_addMissingNode_other s hts]
        exact ht
      rw [getNodeG_addMissingNode_absent h1]
  · intro k v hkv
    show ∃ m, get_edge (addEdgeRaw (addMissingNode (addMissingNode g s) t) s t attrs) s t
        = some m ∧ lookupAttr m k = some v
    unfold get_edge getEdgeG
    rw [addEdgeRaw_directed]
    unfold addEdgeRaw
    cases hE2 : hasEdgeG (addMissingNode (addMissingNode g s) t) s t with
    | true =>
      simp only [hE2, if_true]
      rw [find?_map_keep _ _ _ (fun e => by
        by_cases hm : edgeMatch (addMissingNode (addMissingNode g s) t).directed s t e = true
        · rw [if_pos hm, edgeMatch_keep, hm]
        · rw [if_neg hm])]
      have hsome : ((addMissingNode (addMissingNode g s) t).edges.find?
          (edgeMatch (addMissingNode (addMissingNode g s) t).directed s t)).isSome = true := by
        rw [find?_isSome_eq_any]
        exact hE2
      obtain ⟨e0, he0⟩ := Option.isSome_iff_exists.mp hsome
      have hp0 := List.find?_some he0
      rw [he0]
      refine ⟨updAttrs e0.2.2 attrs, ?_, lookupAttr_updAttrs_mem e0.2.2 attrs k v hkeys hkv⟩
      simp [Option.map, hp0]
    | false =>
      simp only [hE2, Bool.false_eq_true, if_false]
      have hall : ∀ e ∈ (addMissingNode (addMissingNode g s) t).edges,
          edgeMatch (addMissingNode (addMissingNode g s) t).directed s t e = false := by
        intro e he
        have := List.any_eq_false.mp hE2 e he  -- hmm hE2 : ... = false
        simpa using this
      rw [find?_append_none_left _ _ hall]
      refine ⟨attrs, ?_, lookupAttr_mem_nodup attrs k v hkeys hkv⟩
      simp [List.find?, edgeMatch_self]
  · intro hEg
    unfold has_edge at hEg
    show get_edge (addEdgeRaw (addMissingNode (addMissingNode g s) t) s t attrs) s t = some attrs
    unfold get_edge getEdgeG
    rw [addEdgeRaw_directed]
    unfold addEdgeRaw
    have hE2 : hasEdgeG (addMissingNode (addMissingNode g s) t) s t = false := hE.trans hEg
    simp only [hE2, Bool.false_eq_true, if_false]
    have hall : ∀ e ∈ (addMissingNode (addMissingNode g s) t).edges,
        edgeMatch (addMissingNode (addMissingNode g s) t).directed s t e = false := by
      intro e he
      have h2 := List.any_eq_false.mp hE2 e he
      simpa using h2
    rw [find?_append_none_left _ _ hall]
    simp [List.find?, edgeMatch_self]

/-- Witness for C9 on the empty graph with both endpoints missing. -/
theorem upsert_edge_auto_creates_witness :
    ((([("k", "v")] : Attrs).map Prod.fst).Nodup) ∧
    (has_node (upsert_edge nxGraphEmpty "x" "y" [("k", "v")]) "x" = true ∧
     has_node (upsert_edge nxGraphEmpty "x" "y" [("k", "v")]) "y" = true ∧
     has_edge (upsert_edge nxGraphEmpty "x" "y" [("k", "v")]) "x" "y" = true ∧
     (has_node nxGraphEmpty "x" = false →
       get_node (upsert_edge nxGraphEmpty "x" "y" [("k", "v")]) "x" = some []) ∧
     (has_node nxGraphEmpty "y" = false →
       get_node (upsert_edge nxGraphEmpty "x" "y" [("k", "v")]) "y" = some []) ∧
     (∀ k v, (k, v) ∈ ([("k", "v")] : Attrs) →
       ∃ m, get_edge (upsert_edge nxGraphEmpty "x" "y" [("k", "v")]) "x" "y" = some m ∧
         lookupAttr m k = some v) ∧
     (has_edge nxGraphEmpty "x" "y" = false →
       get_edge (upsert_edge nxGraphEmpty "x" "y" [("k", "v")]) "x" "y" = some [("k", "v")])) :=
  ⟨by decide, upsert_edge_auto_creates nxGraphEmpty "x" "y" [("k", "v")] (by decide)⟩

theorem edgeMatch_symm (s t : String) (e : String × String × Attrs) :
    edgeMatch false s t e = edgeMatch false t s e := by
  simp [edgeMatch, Bool.or_comm]

theorem addEdge_directed (g : NxGraph) (s t : String) (a : Attrs) :
    (addEdge g s t a).directed = g.directed := by
  unfold addEdge
  rw [addEdgeRaw_directed, addMissingNode_directed, addMissingNode_directed]

/-- C10: the storage graph is undirected and operations keep it so: for every
undirected graph, hasEdge and getEdge are orientation-symmetric, upsert_edge
makes the reverse orientation queryable, remove_edges on (s, t) also removes
the edge observed as (t, s), and every operation preserves undirectedness
(so the property holds in every reachable state, which starts undirected). -/
theorem undirected_edge_symmetry (g : NxGraph) (s t id : String) (attrs : Attrs)
    (hd : g.directed = false) :
    has_edge g s t = has_edge g t s ∧
    get_edge g s t = get_edge g t s ∧
    has_edge (upsert_edge g s t attrs) t s = true ∧
    has_edge (remove_edges g [(s, t)]) t s = false ∧
    (upsert_edge g s t attrs).directed = false ∧
    (upsert_node g id attrs).directed = false ∧
    (delete_node g id).directed = false ∧
    (remove_nodes g [id]).directed = false ∧
    (remove_edges g [(s, t)]).directed = false ∧
    nxGraphEmpty.directed = false := by
  have hsym : edgeMatch false s t = edgeMatch false t s := funext (edgeMatch_symm s t)
  refine ⟨?_, ?_, ?_, ?_, ?_, ?_, ?_, ?_, ?_, rfl⟩
  · unfold has_edge hasEdgeG
    rw [hd, hsym]
  · unfold get_edge getEdgeG
    rw [hd, hsym]
  · unfold has_edge upsert_edge
    have hdd : (addEdge g s t attrs).directed = false := by rw [addEdge_directed, hd]
    unfold hasEdgeG
    rw [hdd, ← hsym, ← hd]
    have h3 := hasEdgeG_addEdge_self g s t attrs
    unfold hasEdgeG at h3
    rw [addEdge_directed] at h3
    exact h3
  · unfold has_edge remove_edges
    show hasEdgeG (if hasEdgeG g s t then removeEdge g s t else g) t s = false
    cases hse : hasEdgeG g s t with
    | false =>
      simp only [Bool.false_eq_true, if_false]
      unfold hasEdgeG at hse ⊢
      rw [hd, hsym] at hse
      rw [hd]
      exact hse
    | true =>
      simp only [if_true]
      show (g.edges.filter (fun e => !(edgeMatch g.directed s t e))).any
          (edgeMatch (removeEdge g s t).directed t s) = false
      rw [show (removeEdge g s t).directed = g.directed from rfl, hd, ← hsym]
      rw [List.any_eq_false]
      intro e he
      have hkeep := (List.mem_filter.mp he).2
      simp at hkeep
      simp [hkeep]
  · rw [upsert_edge, addEdge_directed, hd]
  · rw [upsert_node, addNode_directed, hd]
  · unfold delete_node
    split
    · rw [show (removeNode g id).directed = g.directed from rfl, hd]
    · exact hd
  · unfold remove_nodes
    show (if hasNodeG g id then removeNode g id else g).directed = false
    split
    · rw [show (removeNode g id).directed = g.directed from rfl, hd]
    · exact hd
  · unfold remove_edges
    show (if hasEdgeG g s t then removeEdge g s t else g).directed = false
    split
    · rw [show (removeEdge g s t).directed = g.directed from rfl, hd]
    · exact hd

/-- Witness for C10 on the concrete undirected example graph. -/
theorem undirected_edge_symmetry_witness :
    graphABC.directed = false ∧
    (has_edge graphABC "A" "B" = has_edge graphABC "B" "A" ∧
     get_edge graphABC "A" "B" = get_edge graphABC "B" "A" ∧
     has_edge (upsert_edge graphABC "A" "B" []) "B" "A" = true ∧
     has_edge (remove_edges graphABC [("A", "B")]) "B" "A" = false ∧
     (upsert_edge graphABC "A" "B" []).directed = false ∧
     (upsert_node graphABC "C" []).directed = false ∧
     (delete_node graphABC "C").directed = false ∧
     (remove_nodes graphABC ["C"]).directed = false ∧
     (remove_edges graphABC [("A", "B")]).directed = false ∧
     nxGraphEmpty.directed = false) :=
  ⟨rfl, undirected_edge_symmetry graphABC "A" "B" "C" [] rfl⟩

theorem EdgesOk_removeNode {g : NxGraph} (a : String) (hE : EdgesOk g) :
    EdgesOk (removeNode g a) := by
  intro e he
  have hmem := List.mem_filter.mp he
  have hcond := hmem.2
  simp only [Bool.and_eq_true, Bool.not_eq_eq_eq_not, Bool.not_true, beq_eq_false_iff_ne] at hcond
  obtain ⟨h1, h2⟩ := hE e hmem.1
  constructor
  · unfold nodeIds at h1 ⊢
    obtain ⟨n, hn, hfst⟩ := List.mem_map.mp h1
    refine List.mem_map.mpr ⟨n, List.mem_filter.mpr ⟨hn, ?_⟩, hfst⟩
    simp only [Bool.not_eq_eq_eq_not, Bool.not_true, beq_eq_false_iff_ne]
    rw [hfst]
    exact hcond.1
  · unfold nodeIds at h2 ⊢
    obtain ⟨n, hn, hfst⟩ := List.mem_map.mp h2
    refine List.mem_map.mpr ⟨n, List.mem_filter.mpr ⟨hn, ?_⟩, hfst⟩
    simp only [Bool.not_eq_eq_eq_not, Bool.not_true, beq_eq_false_iff_ne]
    rw [hfst]
    exact hcond.2

theorem remove_nodes_eq_filter (l : List String) (g : NxGraph) (hE : EdgesOk g) :
    remove_nodes g l =
      { g with nodes := g.nodes.filter (fun n => !(l.contains n.1)),
               edges := g.edges.filter (fun e =>
                 !(l.contains e.1) && !(l.contains e.2.1)) } := by
  induction l generalizing g with
  | nil =>
    show g = _
    have hn : (g.nodes.filter fun n => !(([] : List String).contains n.1)) = g.nodes :=
      List.filter_eq_self.mpr (fun a _ => rfl)
    have he2 : (g.edges.filter fun e =>
        !(([] : List String).contains e.1) && !(([] : List String).contains e.2.1)) = g.edges :=
      List.filter_eq_self.mpr (fun a _ => rfl)
    rw [hn, he2]
  | cons a l ih =>
    show remove_nodes (if hasNodeG g a then removeNode g a else g) l = _
    cases h : hasNodeG g a with
    | true =>
      simp only [if_true]
      rw [ih (removeNode g a) (EdgesOk_removeNode a hE)]
      have hnodes : ((g.nodes.filter fun n => !(n.1 == a)).filter
          fun n => !(l.contains n.1)) = g.nodes.filter fun n => !((a :: l).contains n.1) := by
        rw [List.filter_filter]
        apply List.filter_congr
        intro n _
        rw [List.contains_cons, Bool.not_or, Bool.and_comm]
      have hedges : ((g.edges.filter fun e => !(e.1 == a) && !(e.2.1 == a)).filter
          fun e => !(l.contains e.1) && !(l.contains e.2.1))
          = g.edges.filter fun e => !((a :: l).contains e.1) && !((a :: l).contains e.2.1) := by
        rw [List.filter_filter]
        apply List.filter_congr
        intro e _
        rw [List.contains_cons, List.contains_cons, Bool.not_or, Bool.not_or]
        cases (e.1 == a) <;> cases (e.2.1 == a) <;>
          cases l.contains e.1 <;> cases l.contains e.2.1 <;> rfl
      congr 1
    | false =>
      simp only [Bool.false_eq_true, if_false]
      rw [ih g hE]
      have hids := hasNodeG_false_iff.mp h
      have hnida : ∀ x ∈ nodeIds g, (x == a) = false := by
        intro x hx
        obtain ⟨n, hn, hfst⟩ := List.mem_map.mp hx
        rw [← hfst]
        exact hids n hn
      have hnodes : (g.nodes.filter fun n => !(l.contains n.1))
          = g.nodes.filter fun n => !((a :: l).contains n.1) := by
        apply List.filter_congr
        intro n hn
        rw [List.contains_cons, hids n hn, Bool.false_or]
      have hedges : (g.edges.filter fun e => !(l.contains e.1) && !(l.contains e.2.1))
          = g.edges.filter fun e => !((a :: l).contains e.1) && !((a :: l).contains e.2.1) := by
        apply List.filter_congr
        intro e he
        obtain ⟨h1, h2⟩ := hE e he
        rw [List.contains_cons, List.contains_cons, hnida e.1 h1, hnida e.2.1 h2,
          Bool.false_or, Bool.false_or]
      rw [hnodes, hedges]

theorem remove_edges_eq_filter (l : List (String × String)) (g : NxGraph) :
    remove_edges g l =
      { g with edges := g.edges.filter (fun e =>
          !(l.any (fun p => edgeMatch g.directed p.1 p.2 e))) } := by
  induction l generalizing g with
  | nil =>
    show g = _
    have he2 : (g.edges.filter fun e =>
        !(([] : List (String × String)).any fun p => edgeMatch g.directed p.1 p.2 e))
        = g.edges := List.filter_eq_self.mpr (fun a _ => rfl)
    rw [he2]
  | cons p l ih =>
    show remove_edges (if hasEdgeG g p.1 p.2 then removeEdge g p.1 p.2 else g) l = _
    cases h : hasEdgeG g p.1 p.2 with
    | true =>
      simp only [if_true]
      rw [ih (removeEdge g p.1 p.2)]
      have hedges : ((g.edges.filter fun e => !(edgeMatch g.directed p.1 p.2 e)).filter
          fun e => !(l.any fun q => edgeMatch g.directed q.1 q.2 e))
          = g.edges.filter fun e => !((p :: l).any fun q => edgeMatch g.directed q.1 q.2 e) := by
        rw [List.filter_filter]
        apply List.filter_congr
        intro e _
        rw [List.any_cons, Bool.not_or, Bool.and_comm]
      congr 1
    | false =>
      simp only [Bool.false_eq_true, if_false]
      rw [ih g]
      have hall : ∀ e ∈ g.edges, edgeMatch g.directed p.1 p.2 e = false := by
        intro e he
        have h2 := List.any_eq_false.mp h e he
        simpa using h2
      have hedges : (g.edges.filter fun e => !(l.any fun q => edgeMatch g.directed q.1 q.2 e))
          = g.edges.filter fun e => !((p :: l).any fun q => edgeMatch g.directed q.1 q.2 e) := by
        apply List.filter_congr
        intro e he
        rw [List.any_cons, hall e he, Bool.false_or]
      rw [hedges]

/-- C8 counterexample: remove_nodes(["A"]) on the graph holding only the edge
A-B also removes that edge even though it is not a listed entry, so bulk node
deletion does not leave all other edges unchanged. -/
theorem remove_nodes_removes_incident_edge :
    has_edge (upsert_edge nxGraphEmpty "A" "B" []) "A" "B" = true ∧
    has_edge (remove_nodes (upsert_edge nxGraphEmpty "A" "B" []) ["A"]) "A" "B" = false ∧
    has_node (remove_nodes (upsert_edge nxGraphEmpty "A" "B" []) ["A"]) "B" = true := by
  decide

/-- C8 amended: delete_node of an absent id leaves the graph entirely
unchanged; remove_nodes removes exactly the listed present nodes together
with their incident edges, silently skipping absent ones; remove_edges
removes exactly the listed present edges, silently skipping absent ones;
everything else is unchanged. -/
theorem bulk_deletion_frame (g : NxGraph) (node_id : String) (nodes : List String)
    (edges : List (String × String)) (hE : EdgesOk g) :
    (has_node g node_id = false → delete_node g node_id = g) ∧
    (remove_nodes g nodes =
      { g with nodes := g.nodes.filter (fun n => !(nodes.contains n.1)),
               edges := g.edges.filter (fun e =>
                 !(nodes.contains e.1) && !(nodes.contains e.2.1)) }) ∧
    (remove_edges g edges =
      { g with edges := g.edges.filter (fun e =>
          !(edges.any (fun p => edgeMatch g.directed p.1 p.2 e))) }) := by
  refine ⟨?_, remove_nodes_eq_filter nodes g hE, remove_edges_eq_filter edges g⟩
  intro h
  unfold has_node at h
  unfold delete_node
  rw [h]
  simp

/-- Witness for C8 amended on the concrete example graph. -/
theorem bulk_deletion_frame_witness :
    EdgesOk graphABC ∧
    ((has_node graphABC "X" = false → delete_node graphABC "X" = graphABC) ∧
     (remove_nodes graphABC ["A"] =
       { graphABC with
           nodes := graphABC.nodes.filter (fun n => !((["A"] : List String).contains n.1)),
           edges := graphABC.edges.filter (fun e =>
             !((["A"] : List String).contains e.1) &&
             !((["A"] : List String).contains e.2.1)) }) ∧
     (remove_edges graphABC [("A", "B")] =
       { graphABC with edges := graphABC.edges.filter (fun e =>
           !(([("A", "B")] : List (String × String)).any
             (fun p => edgeMatch graphABC.directed p.1 p.2 e))) })) :=
  ⟨by decide, bulk_deletion_frame graphABC "X" ["A"] [("A", "B")] (by decide)⟩

theorem addNodesFrom_all_new (ns : List (String × Attrs)) (g : NxGraph)
    (hdisj : ∀ n ∈ ns, n.1 ∉ nodeIds g) (hnd : (ns.map Prod.fst).Nodup) :
    addNodesFrom g ns = { g with nodes := g.nodes ++ ns } := by
  induction ns generalizing g with
  | nil => simp [addNodesFrom]
  | cons n ns ih =>
    show addNodesFrom (addNode g n.1 n.2) ns = _
    have hnew : hasNodeG g n.1 = false := by
      rw [← Bool.not_eq_true]
      unfold hasNodeG
      rw [contains_iff_memS]
      exact hdisj n (List.mem_cons_self n ns)
    have hstep : addNode g n.1 n.2 = { g with nodes := g.nodes ++ [n] } := by
      unfold addNode
      rw [hnew]
      simp
    rw [hstep]
    rw [ih { g with nodes := g.nodes ++ [n] } ?_ (List.Nodup.of_cons hnd)]
    · simp
    · intro x hx
      unfold nodeIds
      simp only [List.map_append, List.map_cons, List.map_nil]
      intro hmem
      rcases List.mem_append.mp hmem with hl | hr
      · exact hdisj x (List.mem_cons_of_mem n hx) hl
      · simp at hr
        have hhead : n.1 ∉ ns.map Prod.fst := by
          have h2 := hnd
          simp only [List.map_cons] at h2
          exact (List.nodup_cons.mp h2).1
        exact hhead (hr ▸ List.mem_map.mpr ⟨x, hx, rfl⟩)

theorem edgeMatch_false_of_not_same {d : Bool} {e f : String × String × Attrs}
    (h : ¬ sameEdgePair d e f) : edgeMatch d f.1 f.2.1 e = false := by
  rw [← Bool.not_eq_true]
  intro hm
  apply h
  unfold edgeMatch at hm
  cases d with
  | true =>
    simp only [if_true] at hm
    simp only [Bool.and_eq_true, beq_iff_eq] at hm
    exact Or.inl ⟨hm.1, hm.2⟩
  | false =>
    simp only [Bool.false_eq_true, if_false] at hm
    simp only [Bool.or_eq_true, Bool.and_eq_true, beq_iff_eq] at hm
    rcases hm with ⟨h1, h2⟩ | ⟨h1, h2⟩
    · exact Or.inl ⟨h1, h2⟩
    · exact Or.inr ⟨rfl, h1, h2⟩

theorem addEdgesFrom_all_new (es : List (String × String × Attrs)) (g : NxGraph)
    (hend : ∀ e ∈ es, e.1 ∈ nodeIds g ∧ e.2.1 ∈ nodeIds g)
    (hnewE : ∀ e ∈ es, hasEdgeG g e.1 e.2.1 = false)
    (hpair : es.Pairwise (fun e f => ¬ sameEdgePair g.directed e f)) :
    addEdgesFrom g es = { g with edges := g.edges ++ es } := by
  induction es generalizing g with
  | nil => simp [addEdgesFrom]
  | cons e es ih =>
    show addEdgesFrom (addEdge g e.1 e.2.1 e.2.2) es = _
    have hs : hasNodeG g e.1 = true :=
      contains_iff_memS.mpr (hend e (List.mem_cons_self e es)).1
    have ht : hasNodeG g e.2.1 = true :=
      contains_iff_memS.mpr (hend e (List.mem_cons_self e es)).2
    have hstep : addEdge g e.1 e.2.1 e.2.2 = { g with edges := g.edges ++ [e] } := by
      unfold addEdge
      rw [addMissingNode_present hs, addMissingNode_present ht]
      unfold addEdgeRaw
      rw [hnewE e (List.mem_cons_self e es)]
      simp
    rw [hstep]
    rw [ih { g with edges := g.edges ++ [e] } ?_ ?_ ?_]
    · simp
    · intro f hf
      exact hend f (List.mem_cons_of_mem e hf)
    · intro f hf
      show (g.edges ++ [e]).any (edgeMatch g.directed f.1 f.2.1) = false
      rw [List.any_append]
      have h1 : g.edges.any (edgeMatch g.directed f.1 f.2.1) = false :=
        hnewE f (List.mem_cons_of_mem e hf)
      have h2 : edgeMatch g.directed f.1 f.2.1 e = false :=
        edgeMatch_false_of_not_same ((List.pairwise_cons.mp hpair).1 f hf)
      simp [h1, h2]
    · exact (List.pairwise_cons.mp hpair).2

theorem nodeLE_trans : ∀ (a b c : String × Attrs), nodeLE a b → nodeLE b c → nodeLE a c := by
  intro a b c hab hbc
  unfold nodeLE at hab hbc ⊢
  rw [decide_eq_true_eq] at hab hbc ⊢
  exact le_trans hab hbc

theorem nodeLE_total : ∀ (a b : String × Attrs), nodeLE a b || nodeLE b a := by
  intro a b
  unfold nodeLE
  rcases le_total a.1 b.1 with h | h <;> simp [h]

theorem edgeKeyLE_trans : ∀ (a b c : String × String × Attrs),
    edgeKeyLE a b → edgeKeyLE b c → edgeKeyLE a c := by
  intro a b c hab hbc
  unfold edgeKeyLE at hab hbc ⊢
  rw [decide_eq_true_eq] at hab hbc ⊢
  exact le_trans hab hbc

theorem edgeKeyLE_total : ∀ (a b : String × String × Attrs), edgeKeyLE a b || edgeKeyLE b a := by
  intro a b
  unfold edgeKeyLE
  rcases le_total (_get_edge_key a.1 a.2.1) (_get_edge_key b.1 b.2.1) with h | h <;> simp [h]

theorem sameEdgePair_symm {d : Bool} {e f : String × String × Attrs}
    (h : sameEdgePair d e f) : sameEdgePair d f e := by
  unfold sameEdgePair at h ⊢
  rcases h with ⟨h1, h2⟩ | ⟨hd, h1, h2⟩
  · exact Or.inl ⟨h1.symm, h2.symm⟩
  · exact Or.inr ⟨hd, h2.symm, h1.symm⟩

theorem sameEdgePair_reorient {e f : String × String × Attrs}
    (h : ¬ sameEdgePair false e f) :
    ¬ sameEdgePair false (_sort_source_target e) (_sort_source_target f) := by
  intro hs
  apply h
  unfold _sort_source_target at hs
  unfold sameEdgePair at hs ⊢
  by_cases he : e.1 > e.2.1 <;> by_cases hf : f.1 > f.2.1 <;>
    simp only [he, hf, if_true, if_false] at hs <;>
    simp only [false_and, and_true, true_and, eq_self_iff_true] at hs ⊢ <;>
    tauto

theorem stabilize_eq (g : NxGraph) (h : WFGraph g) :
    _stabilize_graph g =
      { directed := g.directed,
        nodes := g.nodes.mergeSort nodeLE,
        edges := (if g.directed then g.edges
          else g.edges.map _sort_source_target).mergeSort edgeKeyLE } := by
  obtain ⟨hN, hE, hU⟩ := h
  unfold _stabilize_graph
  have hperm : List.Perm (g.nodes.mergeSort nodeLE) g.nodes := List.mergeSort_perm g.nodes nodeLE
  have hnd : ((g.nodes.mergeSort nodeLE).map Prod.fst).Nodup :=
    ((hperm.map Prod.fst).nodup_iff).mpr hN
  have h1 : addNodesFrom { directed := g.directed, nodes := [], edges := [] }
      (g.nodes.mergeSort nodeLE)
      = { directed := g.directed, nodes := g.nodes.mergeSort nodeLE, edges := [] } := by
    rw [addNodesFrom_all_new _ _ (fun n _ hmem => by cases hmem) hnd]
    simp
  show addEdgesFrom (addNodesFrom { directed := g.directed, nodes := [], edges := [] }
      (g.nodes.mergeSort nodeLE))
      ((if g.directed = true then g.edges else List.map _sort_source_target g.edges).mergeSort
        edgeKeyLE) = _
  rw [h1]
  set es0 := if g.directed then g.edges else g.edges.map _sort_source_target with hes0
  have hes0perm : List.Perm (es0.mergeSort edgeKeyLE) es0 := List.mergeSort_perm es0 edgeKeyLE
  have hes0mem : ∀ e ∈ es0, e.1 ∈ nodeIds g ∧ e.2.1 ∈ nodeIds g := by
    intro e he
    rw [hes0] at he
    cases hd : g.directed with
    | true =>
      rw [hd] at he
      simp only [if_true] at he
      exact hE e he
    | false =>
      rw [hd] at he
      simp only [Bool.false_eq_true, if_false] at he
      obtain ⟨e0, he0, hre⟩ := List.mem_map.mp he
      obtain ⟨ha, hb⟩ := hE e0 he0
      unfold _sort_source_target at hre
      by_cases hgt : e0.1 > e0.2.1
      · rw [if_pos hgt] at hre
        rw [← hre]
        exact ⟨hb, ha⟩
      · rw [if_neg hgt] at hre
        rw [← hre]
        exact ⟨ha, hb⟩
  have hes0pair : es0.Pairwise (fun e f => ¬ sameEdgePair g.directed e f) := by
    rw [hes0]
    unfold EdgesUniq at hU
    cases hd : g.directed with
    | true =>
      rw [hd] at hU
      simpa using hU
    | false =>
      rw [hd] at hU
      simpa using List.Pairwise.map _ (fun a b hab => sameEdgePair_reorient hab) hU
  have hpair2 : (es0.mergeSort edgeKeyLE).Pairwise (fun e f => ¬ sameEdgePair g.directed e f) :=
    (hes0perm.pairwise_iff (fun {a b} hab hs => hab (sameEdgePair_symm hs))).mpr hes0pair
  rw [addEdgesFrom_all_new _ _ ?_ ?_ ?_]
  · simp
  · intro e he
    have he0 : e ∈ es0 := hes0perm.mem_iff.mp he
    have := hes0mem e he0
    unfold nodeIds at this ⊢
    constructor
    · show e.1 ∈ (g.nodes.mergeSort nodeLE).map Prod.fst
      exact ((hperm.map Prod.fst).mem_iff).mpr this.1
    · exact ((hperm.map Prod.fst).mem_iff).mpr this.2
  · intro e _
    rfl
  · exact hpair2

theorem reorient_idem (e : String × String × Attrs) :
    _sort_source_target (_sort_source_target e) = _sort_source_target e := by
  unfold _sort_source_target
  by_cases hgt : e.1 > e.2.1
  · rw [if_pos hgt]
    have h2 : ¬ ((e.2.1, e.1, e.2.2).1 > (e.2.1, e.1, e.2.2).2.1) := not_lt_of_gt hgt
    rw [if_neg h2]
  · rw [if_neg hgt, if_neg hgt]

theorem WFGraph_stabilize (g : NxGraph) (h : WFGraph g) : WFGraph (_stabilize_graph g) := by
  obtain ⟨hN, hE, hU⟩ := h
  rw [stabilize_eq g ⟨hN, hE, hU⟩]
  have hperm : List.Perm (g.nodes.mergeSort nodeLE) g.nodes := List.mergeSort_perm g.nodes nodeLE
  have hes0mem : ∀ e ∈ (if g.directed then g.edges else g.edges.map _sort_source_target),
      e.1 ∈ nodeIds g ∧ e.2.1 ∈ nodeIds g := by
    intro e he
    cases hd : g.directed with
    | true =>
      rw [hd] at he
      simp only [if_true] at he
      exact hE e he
    | false =>
      rw [hd] at he
      simp only [Bool.false_eq_true, if_false] at he
      obtain ⟨e0, he0, hre⟩ := List.mem_map.mp he
      obtain ⟨ha, hb⟩ := hE e0 he0
      unfold _sort_source_target at hre
      by_cases hgt : e0.1 > e0.2.1
      · rw [if_pos hgt] at hre
        rw [← hre]
        exact ⟨hb, ha⟩
      · rw [if_neg hgt] at hre
        rw [← hre]
        exact ⟨ha, hb⟩
  have hes0pair : (if g.directed then g.edges else g.edges.map _sort_source_target).Pairwise
      (fun e f => ¬ sameEdgePair g.directed e f) := by
    unfold EdgesUniq at hU
    cases hd : g.directed with
    | true =>
      rw [hd] at hU
      simpa using hU
    | false =>
      rw [hd] at hU
      simpa using List.Pairwise.map _ (fun a b hab => sameEdgePair_reorient hab) hU
  refine ⟨?_, ?_, ?_⟩
  · unfold NodesOk nodeIds
    exact ((hperm.map Prod.fst).nodup_iff).mpr hN
  · intro e he
    have he2 : e ∈ (if g.directed then g.edges else g.edges.map _sort_source_target) := by
      have := List.mem_mergeSort.mp he
      exact this
    obtain ⟨h1, h2⟩ := hes0mem e he2
    unfold nodeIds
    exact ⟨((hperm.map Prod.fst).mem_iff).mpr h1, ((hperm.map Prod.fst).mem_iff).mpr h2⟩
  · unfold EdgesUniq
    have hp := (List.mergeSort_perm
      (if g.directed then g.edges else g.edges.map _sort_source_target) edgeKeyLE)
    exact (hp.pairwise_iff (fun {a b} hab hs => hab (sameEdgePair_symm hs))).mpr hes0pair

/-- C4: canonical stabilization is idempotent: for every graph satisfying the
networkx representation invariant, stabilizing twice gives exactly the same
graph value (same directedness, node list with attributes, and normalized
sorted edge list) as stabilizing once, so both serialize identically. -/
theorem _stabilize_graph_idempotent (g : NxGraph) (h : WFGraph g) :
    _stabilize_graph (_stabilize_graph g) = _stabilize_graph g := by
  have hS := stabilize_eq g h
  have hWS := WFGraph_stabilize g h
  rw [stabilize_eq _ hWS, hS]
  have hsortedN : (g.nodes.mergeSort nodeLE).Pairwise (fun a b => nodeLE a b = true) :=
    @List.sorted_mergeSort _ nodeLE nodeLE_trans nodeLE_total g.nodes
  have h2 : (g.nodes.mergeSort nodeLE).mergeSort nodeLE = g.nodes.mergeSort nodeLE :=
    List.mergeSort_of_sorted hsortedN
  have h3 : ∀ (es : List (String × String × Attrs)),
      (es.mergeSort edgeKeyLE).mergeSort edgeKeyLE = es.mergeSort edgeKeyLE := by
    intro es
    exact List.mergeSort_of_sorted (@List.sorted_mergeSort _ edgeKeyLE
      edgeKeyLE_trans edgeKeyLE_total es)
  cases hd : g.directed with
  | true =>
    simp only [hd, if_true]
    congr 1
    exact h3 g.edges
  | false =>
    simp only [hd, Bool.false_eq_true, if_false]
    have hmapid : (((g.edges.map _sort_source_target).mergeSort edgeKeyLE).map
        _sort_source_target) = (g.edges.map _sort_source_target).mergeSort edgeKeyLE := by
      have hid : ∀ e ∈ (g.edges.map _sort_source_target).mergeSort edgeKeyLE,
          _sort_source_target e = e := by
        intro e he
        have he2 : e ∈ g.edges.map _sort_source_target := List.mem_mergeSort.mp he
        obtain ⟨e0, _, hre⟩ := List.mem_map.mp he2
        rw [← hre]
        exact reorient_idem e0
      calc ((g.edges.map _sort_source_target).mergeSort edgeKeyLE).map _sort_source_target
          = ((g.edges.map _sort_source_target).mergeSort edgeKeyLE).map id :=
            List.map_congr_left hid
        _ = (g.edges.map _sort_source_target).mergeSort edgeKeyLE := List.map_id _
    congr 1
    rw [hmapid]
    exact h3 _

/-- Witness for C4 on a concrete well-formed unsorted graph. -/
theorem _stabilize_graph_idempotent_witness :
    WFGraph graphC4 ∧
    _stabilize_graph (_stabilize_graph graphC4) = _stabilize_graph graphC4 :=
  ⟨by decide, _stabilize_graph_idempotent graphC4 (by decide)⟩

theorem pair_sublist_of_mem {α : Type} {x y : α} (hne : x ≠ y) :
    ∀ {l : List α}, x ∈ l → y ∈ l → [x, y].Sublist l ∨ [y, x].Sublist l := by
  intro l
  induction l with
  | nil => intro hx; cases hx
  | cons a rest ih =>
    intro hx hy
    rcases List.mem_cons.mp hx with hxa | hxr
    · have hyr : y ∈ rest := by
        rcases List.mem_cons.mp hy with hya | hyr
        · exact absurd (hxa.trans hya.symm) hne
        · exact hyr
      left
      rw [hxa]
      exact List.Sublist.cons₂ a ((List.singleton_sublist).mpr hyr)
    · rcases List.mem_cons.mp hy with hya | hyr
      · right
        rw [hya]
        exact List.Sublist.cons₂ a ((List.singleton_sublist).mpr hxr)
      · rcases ih hxr hyr with h | h
        · exact Or.inl (h.cons a)
        · exact Or.inr (h.cons a)

theorem map_fst_filter_pred (l : List (String × Attrs)) (p : String → Bool) :
    (l.filter (fun n => p n.1)).map Prod.fst = (l.map Prod.fst).filter p := by
  induction l with
  | nil => rfl
  | cons n rest ih =>
    simp only [List.filter, List.map]
    cases h : p n.1 <;> simp [h, ih]

theorem degGE_trans : ∀ (a b c : String × Nat), degGE a b → degGE b c → degGE a c := by
  intro a b c hab hbc
  unfold degGE at hab hbc ⊢
  rw [decide_eq_true_eq] at hab hbc ⊢
  exact le_trans hbc hab

theorem degGE_total : ∀ (a b : String × Nat), degGE a b || degGE b a := by
  intro a b
  unfold degGE
  rcases le_total a.2 b.2 with h | h <;> simp [h]

theorem addResultNodes_length_le (l : List (String × Attrs)) (seen : List String) :
    (addResultNodes l seen).length ≤ l.length := by
  induction l generalizing seen with
  | nil => simp [addResultNodes]
  | cons n rest ih =>
    unfold addResultNodes
    cases h : seen.contains n.1 with
    | true =>
      simp only [if_true]
      exact le_trans (ih seen) (Nat.le_succ _)
    | false =>
      simp only [Bool.false_eq_true, if_false, List.length_cons]
      exact Nat.succ_le_succ (ih (n.1 :: seen))

theorem addResultNodes_ids (l : List (String × Attrs)) (seen : List String)
    (hnd : (l.map Prod.fst).Nodup) (hdisj : ∀ n ∈ l, n.1 ∉ seen) :
    (addResultNodes l seen).map KGNode.id = l.map Prod.fst := by
  induction l generalizing seen with
  | nil => rfl
  | cons n rest ih =>
    unfold addResultNodes
    have hns : seen.contains n.1 = false := by
      rw [← Bool.not_eq_true, contains_iff_memS]
      exact hdisj n (List.mem_cons_self n rest)
    rw [hns]
    simp only [Bool.false_eq_true, if_false, List.map_cons]
    have hhead : n.1 ∉ rest.map Prod.fst := by
      have h2 := hnd
      simp only [List.map_cons] at h2
      exact (List.nodup_cons.mp h2).1
    rw [ih (n.1 :: seen) (List.Nodup.of_cons (by simpa using hnd)) ?_]
    intro x hx hmem
    rcases List.mem_cons.mp hmem with h1 | h2
    · exact hhead (h1 ▸ List.mem_map.mpr ⟨x, hx, rfl⟩)
    · exact hdisj x (List.mem_cons_of_mem n hx) h2

theorem addResultEdges_src_tgt (l : List (String × String × Attrs)) (seen : List String) :
    ∀ ke ∈ addResultEdges l seen, ∃ e ∈ l, ke.source = e.1 ∧ ke.target = e.2.1 := by
  induction l generalizing seen with
  | nil => intro ke h; cases h
  | cons e rest ih =>
    intro ke hke
    unfold addResultEdges at hke
    cases h : seen.contains (e.1 ++ "-" ++ e.2.1) with
    | true =>
      rw [h] at hke
      simp only [if_true] at hke
      obtain ⟨f, hf, h1, h2⟩ := ih seen ke hke
      exact ⟨f, List.mem_cons_of_mem e hf, h1, h2⟩
    | false =>
      rw [h] at hke
      simp only [Bool.false_eq_true, if_false] at hke
      rcases List.mem_cons.mp hke with hh | ht
      · exact ⟨e, List.mem_cons_self e rest, by rw [hh], by rw [hh]⟩
      · obtain ⟨f, hf, h1, h2⟩ := ih _ ke ht
        exact ⟨f, List.mem_cons_of_mem e hf, h1, h2⟩

theorem candidate_parts {g : NxGraph} {label : String} {depth : Nat} {sub : NxGraph}
    (hc : candidateSubgraph g label depth = some sub) :
    sub.nodes.Sublist g.nodes ∧ sub.directed = g.directed ∧
    (EdgesOk g → EdgesOk sub) := by
  unfold candidateSubgraph at hc
  by_cases hstar : (label == "*") = true
  · rw [if_pos hstar] at hc
    cases hc
    exact ⟨List.Sublist.refl _, rfl, fun h => h⟩
  · rw [if_neg hstar] at hc
    cases hm : (g.nodes.filter (fun n => strContains n.1 label)).map Prod.fst with
    | nil => rw [hm] at hc; cases hc
    | cons n0 rest =>
      rw [hm] at hc
      cases hc
      refine ⟨List.filter_sublist _, rfl, ?_⟩
      intro hE e he
      have hmem := List.mem_filter.mp he
      have hcond := hmem.2
      rw [Bool.and_eq_true] at hcond
      obtain ⟨h1, h2⟩ := hE e hmem.1
      constructor
      · show e.1 ∈ nodeIds (egoGraph g n0 depth)
        unfold nodeIds egoGraph
        rw [map_fst_filter_pred]
        exact List.mem_filter.mpr ⟨h1, hcond.1⟩
      · show e.2.1 ∈ nodeIds (egoGraph g n0 depth)
        unfold nodeIds egoGraph
        rw [map_fst_filter_pred]
        exact List.mem_filter.mpr ⟨h2, hcond.2⟩

theorem truncate_eq_big (sub : NxGraph) (hbig : max_graph_nodes < sub.nodes.length) :
    truncateSubgraph sub =
      { directed := sub.directed,
        nodes := sub.nodes.filter (fun n =>
          ((((sub.nodes.map (fun n => (n.1, degreeG sub n.1))).mergeSort degGE).take
            max_graph_nodes).map Prod.fst).contains n.1),
        edges := sub.edges.filter (fun e =>
          ((((sub.nodes.map (fun n => (n.1, degreeG sub n.1))).mergeSort degGE).take
            max_graph_nodes).map Prod.fst).contains e.1 &&
          ((((sub.nodes.map (fun n => (n.1, degreeG sub n.1))).mergeSort degGE).take
            max_graph_nodes).map Prod.fst).contains e.2.1) } := by
  unfold truncateSubgraph
  rw [if_pos hbig]

theorem truncate_eq_small (sub : NxGraph) (hsmall : ¬ max_graph_nodes < sub.nodes.length) :
    truncateSubgraph sub = sub := by
  unfold truncateSubgraph
  rw [if_neg hsmall]

theorem truncate_spec (sub : NxGraph) (hN : (sub.nodes.map Prod.fst).Nodup)
    (hE : EdgesOk sub) (hbig : max_graph_nodes < sub.nodes.length) :
    ((truncateSubgraph sub).nodes.map Prod.fst).Nodup ∧
    (truncateSubgraph sub).nodes.length = max_graph_nodes ∧
    (∀ e ∈ (truncateSubgraph sub).edges,
      e.1 ∈ (truncateSubgraph sub).nodes.map Prod.fst ∧
      e.2.1 ∈ (truncateSubgraph sub).nodes.map Prod.fst) ∧
    (∀ k ∈ (truncateSubgraph sub).nodes.map Prod.fst,
     ∀ d ∈ sub.nodes.map Prod.fst, d ∉ (truncateSubgraph sub).nodes.map Prod.fst →
      degreeG sub d < degreeG sub k ∨
        (degreeG sub d = degreeG sub k ∧ [k, d].Sublist (sub.nodes.map Prod.fst))) := by
  have heq := truncate_eq_big sub hbig
  set nd := sub.nodes.map (fun n => (n.1, degreeG sub n.1)) with hnd
  set sorted := nd.mergeSort degGE with hsorted
  set tIds := (sorted.take max_graph_nodes).map Prod.fst with htIds
  have hndids : nd.map Prod.fst = sub.nodes.map Prod.fst := by
    rw [hnd, List.map_map]
    rfl
  have hndnodup : nd.Nodup := List.Nodup.of_map Prod.fst (by rw [hndids]; exact hN)
  have hsortperm : List.Perm sorted nd := List.mergeSort_perm nd degGE
  have hsortnodup : sorted.Nodup := (hsortperm.nodup_iff).mpr hndnodup
  have hsortidsnodup : (sorted.map Prod.fst).Nodup := by
    have hp : List.Perm (sorted.map Prod.fst) (nd.map Prod.fst) := hsortperm.map Prod.fst
    rw [hp.nodup_iff, hndids]
    exact hN
  have htake : sorted.take max_graph_nodes ++ sorted.drop max_graph_nodes = sorted :=
    List.take_append_drop _ _
  have hsortlen : sorted.length = sub.nodes.length := by
    rw [hsorted, List.length_mergeSort, hnd, List.length_map]
  have htIdsnodup : tIds.Nodup := by
    rw [htIds]
    exact List.Nodup.sublist (List.Sublist.map Prod.fst (List.take_sublist _ _)) hsortidsnodup
  have htIdslen : tIds.length = max_graph_nodes := by
    rw [htIds, List.length_map, List.length_take]
    omega
  have htIdssub : ∀ x ∈ tIds, x ∈ sub.nodes.map Prod.fst := by
    intro x hx
    rw [htIds] at hx
    obtain ⟨p, hp, hfst⟩ := List.mem_map.mp hx
    have hp2 : p ∈ sorted := List.mem_of_mem_take hp
    have hp3 : p ∈ nd := hsortperm.mem_iff.mp hp2
    rw [← hndids]
    exact hfst ▸ List.mem_map.mpr ⟨p, hp3, rfl⟩
  have hTnodesIds : (truncateSubgraph sub).nodes.map Prod.fst
      = (sub.nodes.map Prod.fst).filter tIds.contains := by
    rw [heq]
    exact map_fst_filter_pred sub.nodes tIds.contains
  have hTnodup : ((truncateSubgraph sub).nodes.map Prod.fst).Nodup := by
    rw [hTnodesIds]
    exact List.Nodup.sublist (List.filter_sublist _) hN
  have hfiltperm : List.Perm ((sub.nodes.map Prod.fst).filter tIds.contains) tIds := by
    apply List.Subperm.antisymm
    · apply List.subperm_of_subset (List.Nodup.sublist (List.filter_sublist _) hN)
      intro x hx
      have := List.mem_filter.mp hx
      exact contains_iff_memS.mp this.2
    · apply List.subperm_of_subset htIdsnodup
      intro x hx
      exact List.mem_filter.mpr ⟨htIdssub x hx, contains_iff_memS.mpr hx⟩
  have hlen : (truncateSubgraph sub).nodes.length = max_graph_nodes := by
    have h1 : ((truncateSubgraph sub).nodes.map Prod.fst).length
        = (truncateSubgraph sub).nodes.length := List.length_map _ _
    rw [← h1, hTnodesIds, hfiltperm.length_eq, htIdslen]
  refine ⟨hTnodup, hlen, ?_, ?_⟩
  · intro e he
    rw [heq] at he
    have hmem := List.mem_filter.mp he
    rw [Bool.and_eq_true] at hmem
    obtain ⟨h1, h2⟩ := hE e hmem.1
    rw [hTnodesIds]
    constructor
    · exact List.mem_filter.mpr ⟨h1, hmem.2.1⟩
    · exact List.mem_filter.mpr ⟨h2, hmem.2.2⟩
  · intro k hk d hd hdnot
    rw [hTnodesIds] at hk hdnot
    have hkt : k ∈ tIds := contains_iff_memS.mp (List.mem_filter.mp hk).2
    have hdt : d ∉ tIds := by
      intro hmem
      exact hdnot (List.mem_filter.mpr ⟨hd, contains_iff_memS.mpr hmem⟩)
    have hkd : k ≠ d := by
      intro he2
      exact hdt (he2 ▸ hkt)
    have hndform : ∀ p ∈ nd, p.2 = degreeG sub p.1 := by
      intro p hp
      obtain ⟨n, _, hpe⟩ := List.mem_map.mp hp
      rw [← hpe]
    have hkpair : (k, degreeG sub k) ∈ sorted.take max_graph_nodes := by
      rw [htIds] at hkt
      obtain ⟨p, hp, hfst⟩ := List.mem_map.mp hkt
      have hp3 : p ∈ nd := hsortperm.mem_iff.mp (List.mem_of_mem_take hp)
      have := hndform p hp3
      have hpk : p = (k, degreeG sub k) := by
        rw [Prod.ext_iff]
        exact ⟨hfst, by rw [this, hfst]⟩
      rw [← hpk]
      exact hp
    have hdpair : (d, degreeG sub d) ∈ nd := by
      rw [← hndids] at hd
      obtain ⟨p, hp, hfst⟩ := List.mem_map.mp hd
      have := hndform p hp
      have hpd : p = (d, degreeG sub d) := by
        rw [Prod.ext_iff]
        exact ⟨hfst, by rw [this, hfst]⟩
      rw [← hpd]
      exact hp
    have hdsorted : (d, degreeG sub d) ∈ sorted := hsortperm.mem_iff.mpr hdpair
    have hddrop : (d, degreeG sub d) ∈ sorted.drop max_graph_nodes := by
      have h2 : (d, degreeG sub d) ∉ sorted.take max_graph_nodes := by
        intro hmem
        apply hdt
        rw [htIds]
        exact List.mem_map.mpr ⟨(d, degreeG sub d), hmem, rfl⟩
      rw [← htake] at hdsorted
      rcases List.mem_append.mp hdsorted with h | h
      · exact absurd h h2
      · exact h
    have hsortedpw : sorted.Pairwise (fun a b => degGE a b = true) :=
      @List.sorted_mergeSort _ degGE degGE_trans degGE_total nd
    have hle : degreeG sub d ≤ degreeG sub k := by
      have hpw := hsortedpw
      rw [← htake, List.pairwise_append] at hpw
      have := hpw.2.2 _ hkpair _ hddrop
      unfold degGE at this
      rw [decide_eq_true_eq] at this
      exact this
    rcases Nat.lt_or_ge (degreeG sub d) (degreeG sub k) with hlt | hge
    · exact Or.inl hlt
    · have heq2 : degreeG sub d = degreeG sub k := Nat.le_antisymm hle hge
      refine Or.inr ⟨heq2, ?_⟩
      have hkd2 : ((k, degreeG sub k) : String × Nat) ≠ (d, degreeG sub d) := by
        intro hcontra
        exact hkd (congrArg Prod.fst hcontra)
      have hkin : (k, degreeG sub k) ∈ nd :=
        hsortperm.mem_iff.mp (List.mem_of_mem_take hkpair)
      rcases pair_sublist_of_mem hkd2 hkin hdpair with hgood | hbad
      · have := List.Sublist.map Prod.fst hgood
        simp only [List.map_cons, List.map_nil] at this
        rw [hndids] at this
        exact this
      · exfalso
        have hGE : degGE (d, degreeG sub d) (k, degreeG sub k) = true := by
          unfold degGE
          rw [decide_eq_true_eq]
          exact le_of_eq heq2.symm
        have hsub2 : [(d, degreeG sub d), (k, degreeG sub k)].Sublist sorted :=
          List.pair_sublist_mergeSort degGE_trans degGE_total hGE hbad
        rw [← htake] at hsub2
        rw [List.sublist_append_iff] at hsub2
        obtain ⟨l1, l2, hsplit, hs1, hs2⟩ := hsub2
        have hdisj : (sorted.take max_graph_nodes).Disjoint (sorted.drop max_graph_nodes) := by
          have := hsortnodup
          rw [← htake, List.nodup_append] at this
          exact this.2.2
        cases l1 with
        | nil =>
          simp only [List.nil_append] at hsplit
          rw [← hsplit] at hs2
          have hk2 : (k, degreeG sub k) ∈ sorted.drop max_graph_nodes :=
            hs2.subset (by simp)
          exact hdisj hkpair hk2
        | cons a l1t =>
          have ha : a = (d, degreeG sub d) := by
            have h5 := congrArg (fun l => l.head?) hsplit
            simpa using h5.symm
          have hd2 : (d, degreeG sub d) ∈ sorted.take max_graph_nodes := by
            apply hs1.subset
            rw [← ha]
            simp
          apply hdt
          rw [htIds]
          exact List.mem_map.mpr ⟨(d, degreeG sub d), hd2, rfl⟩

theorem addResultNodes_length_eq (l : List (String × Attrs))
    (hnd : (l.map Prod.fst).Nodup) : (addResultNodes l []).length = l.length := by
  have h := addResultNodes_ids l [] hnd (fun n _ => List.not_mem_nil n.1)
  have h2 := congrArg List.length h
  rw [List.length_map, List.length_map] at h2
  exact h2

/-- C3: get_knowledge_graph never returns more than 500 nodes; when the
candidate subgraph exceeds 500 nodes the result has exactly 500 nodes, keeps
only nodes that dominate every dropped node by in-subgraph degree (ties
resolved in favour of the node encountered first in iteration order), and
contains no edge referencing a dropped node. -/
theorem get_knowledge_graph_truncation (g : NxGraph) (label : String) (depth : Nat)
    (hN : (g.nodes.map Prod.fst).Nodup) (hE : EdgesOk g) :
    (get_knowledge_graph g label depth).nodes.length ≤ max_graph_nodes ∧
    (∀ sub, candidateSubgraph g label depth = some sub →
      max_graph_nodes < sub.nodes.length →
      (get_knowledge_graph g label depth).nodes.length = max_graph_nodes ∧
      (∀ e ∈ (get_knowledge_graph g label depth).edges,
        e.source ∈ (get_knowledge_graph g label depth).nodes.map KGNode.id ∧
        e.target ∈ (get_knowledge_graph g label depth).nodes.map KGNode.id) ∧
      (∀ k ∈ (get_knowledge_graph g label depth).nodes.map KGNode.id,
       ∀ d ∈ sub.nodes.map Prod.fst,
        d ∉ (get_knowledge_graph g label depth).nodes.map KGNode.id →
        degreeG sub d < degreeG sub k ∨
          (degreeG sub d = degreeG sub k ∧ [k, d].Sublist (sub.nodes.map Prod.fst)))) := by
  constructor
  · cases hc : candidateSubgraph g label depth with
    | none =>
      unfold get_knowledge_graph
      rw [hc]
      exact Nat.zero_le _
    | some sub =>
      unfold get_knowledge_graph
      rw [hc]
      obtain ⟨hsubl, _, hEok⟩ := candidate_parts hc
      have hsubN : (sub.nodes.map Prod.fst).Nodup :=
        List.Nodup.sublist (hsubl.map Prod.fst) hN
      by_cases hbig : max_graph_nodes < sub.nodes.length
      · obtain ⟨hTnd, hTlen, _, _⟩ := truncate_spec sub hsubN (hEok hE) hbig
        show (addResultNodes (truncateSubgraph sub).nodes []).length ≤ max_graph_nodes
        rw [addResultNodes_length_eq _ hTnd, hTlen]
      · show (addResultNodes (truncateSubgraph sub).nodes []).length ≤ max_graph_nodes
        rw [truncate_eq_small sub hbig]
        exact le_trans (addResultNodes_length_le sub.nodes []) (Nat.le_of_not_lt hbig)
  · intro sub hc hbig
    obtain ⟨hsubl, _, hEok⟩ := candidate_parts hc
    have hsubN : (sub.nodes.map Prod.fst).Nodup :=
      List.Nodup.sublist (hsubl.map Prod.fst) hN
    obtain ⟨hTnd, hTlen, hTedge, hTdom⟩ := truncate_spec sub hsubN (hEok hE) hbig
    have hres : get_knowledge_graph g label depth =
        { nodes := addResultNodes (truncateSubgraph sub).nodes [],
          edges := addResultEdges (truncateSubgraph sub).edges [] } := by
      unfold get_knowledge_graph
      rw [hc]
    have hids : (get_knowledge_graph g label depth).nodes.map KGNode.id
        = (truncateSubgraph sub).nodes.map Prod.fst := by
      rw [hres]
      exact addResultNodes_ids _ [] hTnd (fun n _ => List.not_mem_nil n.1)
    refine ⟨?_, ?_, ?_⟩
    · rw [hres]
      exact (addResultNodes_length_eq _ hTnd).trans hTlen
    · intro ke hke
      rw [hres] at hke
      obtain ⟨e, he, hsrc, htgt⟩ := addResultEdges_src_tgt _ [] ke hke
      obtain ⟨h1, h2⟩ := hTedge e he
      rw [hids, hsrc, htgt]
      exact ⟨h1, h2⟩
    · intro k hk d hd hdnot
      rw [hids] at hk hdnot
      exact hTdom k hk d hd hdnot

/-- Witness for C3 on the concrete example graph (candidate below the cap, so
the bound conjunct is exercised and the truncation conjunct is instantiated). -/
theorem get_knowledge_graph_truncation_witness :
    (graphABC.nodes.map Prod.fst).Nodup ∧ EdgesOk graphABC ∧
    (get_knowledge_graph graphABC "*" 5).nodes.length ≤ max_graph_nodes :=
  ⟨by decide, by decide,
    (get_knowledge_graph_truncation graphABC "*" 5 (by decide) (by decide)).1⟩
